import Mathlib

/-!
Shallow embedding of the DeepSpyce binary codec layer
(`deepspyce/utils/misc.py`, `deepspyce/utils/files_utils.py`,
`deepspyce/io/filterbank.py`) and proofs about the spec's claims.

Conventions of the embedding:
* Python `bytes` are `List Nat` with each entry below 256.
* The reference platform is 64-bit little-endian Linux (the one the
  repository targets): the native byte order is little-endian,
  `np.dtype(int)` is the 8-byte `l` dtype whose `struct` format with an
  explicit byte-order prefix (`"=l"`, `">l"`, `"<l"`) packs as a
  *4-byte* standard-size signed integer, and `np.dtype(float)` packs as
  the 8-byte `d` format.
* Python floats are carried as their 64-bit IEEE bit patterns
  (`Nat` below `2^64`); the codec never does float arithmetic, it only
  moves the 8 bytes, so the bit pattern is a faithful representation.
* Exceptions are modelled with `Except PyErr`.
-/

deriving instance DecidableEq for Except

namespace DeepSpyce

/-- Errors raised by the Python code paths that the claims touch. -/
inductive PyErr where
  /-- `struct.error`: not enough bytes for `struct.unpack`, or a value out
  of range for `struct.pack`. -/
  | structErr
  /-- `UnicodeDecodeError` from `bytes.decode()`. -/
  | unicodeErr
  /-- `UnboundLocalError`: a local variable read before any assignment. -/
  | unboundLocalErr
  /-- `OSError` raised by `write_filterbank` when no output name resolves. -/
  | osErr
  /-- `FileExistsError` from `open_file` when overwrite is off. -/
  | fileExistsErr
  /-- `ValueError` from `np.frombuffer`: buffer size not a multiple of the
  element size. -/
  | bufferSizeErr
  /-- `ValueError` from `np.ndarray.reshape`: element count does not match
  the requested shape. -/
  | reshapeErr
  /-- `ZeroDivisionError` (`n_cols = 0`). -/
  | zeroDivErr
  /-- Loop fuel exhausted; unreachable for the streams considered here. -/
  | fuelErr
  /-- A Python behaviour outside the scope of the claims (packing a value
  with a format of a different kind, which `struct.pack` either converts
  numerically or rejects; using a non-string header value as a path). -/
  | unmodeledErr
  deriving DecidableEq, Repr

/-- Byte order resolved from a numpy byte-order directive. `le` is the
native order of the reference platform, `be` the swapped one. -/
inductive Bord where
  | le
  | be
  deriving DecidableEq, Repr

/-- Flipping the byte order (numpy `"S"` directive). -/
def Bord.flip : Bord → Bord
  | .le => .be
  | .be => .le

/-- Little-endian bytes of `n`, `w` bytes wide (`n` taken mod `256^w`). -/
def encLE : Nat → Nat → List Nat
  | 0, _ => []
  | w + 1, n => n % 256 :: encLE w (n / 256)

/-- Value of a little-endian byte list. -/
def decLE : List Nat → Nat
  | [] => 0
  | b :: bs => b + 256 * decLE bs

/-- Bytes of `n`, `w` wide, in byte order `ord`. -/
def encB (ord : Bord) (w n : Nat) : List Nat :=
  match ord with
  | .le => encLE w n
  | .be => (encLE w n).reverse

/-- Value of a byte list read in byte order `ord`. -/
def decB (ord : Bord) (bs : List Nat) : Nat :=
  match ord with
  | .le => decLE bs
  | .be => decLE bs.reverse

theorem encLE_length (w n : Nat) : (encLE w n).length = w := by
  induction w generalizing n with
  | zero => rfl
  | succ w ih => simp [encLE, ih]

theorem encB_length (ord : Bord) (w n : Nat) : (encB ord w n).length = w := by
  cases ord <;> simp [encB, encLE_length]

theorem decLE_encLE (w n : Nat) (h : n < 256 ^ w) : decLE (encLE w n) = n := by
  induction w generalizing n with
  | zero =>
      simp [encLE, decLE]
      omega
  | succ w ih =>
      have hdiv : n / 256 < 256 ^ w := by
        rw [Nat.div_lt_iff_lt_mul (by norm_num)]
        calc n < 256 ^ (w + 1) := h
          _ = 256 ^ w * 256 := by ring
      simp [encLE, decLE, ih (n / 256) hdiv]
      omega

theorem decB_encB (ord : Bord) (w n : Nat) (h : n < 256 ^ w) :
    decB ord (encB ord w n) = n := by
  cases ord <;> simp [encB, decB, decLE_encLE w n h]

/-- Concatenation-map over a list (`[y for x in xs for y in f x]`). -/
def flatMapL (f : α → List β) : List α → List β
  | [] => []
  | x :: xs => f x ++ flatMapL f xs

theorem flatMapL_length_uniform (f : α → List β) (w : Nat) :
    ∀ xs : List α, (∀ x ∈ xs, (f x).length = w) →
      (flatMapL f xs).length = xs.length * w := by
  intro xs
  induction xs with
  | nil => intro _; simp [flatMapL]
  | cons x xs ih =>
      intro h
      have hx := h x (by simp)
      have hrest := ih (fun y hy => h y (by simp [hy]))
      simp [flatMapL, hx, hrest]
      ring

theorem flatMapL_getD_uniform (f : α → List β) (w : Nat) (d : β) :
    ∀ (xs : List α) (q i : Nat), (∀ x ∈ xs, (f x).length = w) →
      (hq : q < xs.length) → i < w →
      (flatMapL f xs).getD (q * w + i) d = (f xs[q]).getD i d := by
  intro xs
  induction xs with
  | nil => intro q i _ hq _; simp at hq
  | cons x xs ih =>
      intro q i h hq hi
      have hx := h x (by simp)
      match q with
      | 0 =>
          simp only [flatMapL, Nat.zero_mul, Nat.zero_add]
          rw [List.getD_append (f x) (flatMapL f xs) d i (by omega)]
          rfl
      | q + 1 =>
          simp only [flatMapL]
          rw [List.getD_append_right (f x) (flatMapL f xs) d _ (by nlinarith)]
          have harith : (q + 1) * w + i - (f x).length = q * w + i := by
            rw [hx]; ring_nf; omega
          rw [harith]
          have hgoal := ih q i (fun y hy => h y (by simp [hy])) (by simpa using hq) hi
          simpa using hgoal

/-- UTF-8 bytes of one character (Python `str.encode()`). -/
def utf8Char (c : Char) : List Nat :=
  let n := c.toNat
  if n < 128 then [n]
  else if n < 2048 then [192 + n / 64, 128 + n % 64]
  else if n < 65536 then [224 + n / 4096, 128 + n / 64 % 64, 128 + n % 64]
  else [240 + n / 262144, 128 + n / 4096 % 64, 128 + n / 64 % 64, 128 + n % 64]

/-- UTF-8 encoding of a character list. -/
def utf8L (cs : List Char) : List Nat := flatMapL utf8Char cs

/-- One step of strict UTF-8 decoding: given a lead byte and the bytes
after it, decode one scalar value and return the remaining bytes.
Overlong forms, surrogates, out-of-range lead bytes and truncated
sequences are rejected, as CPython's `bytes.decode()` does. -/
def utf8Step (b : Nat) (bs : List Nat) : Option (Char × List Nat) :=
  if b < 128 then some (Char.ofNat b, bs)
  else if b < 194 then none
  else if b < 224 then
    match bs with
    | c :: bs2 =>
        if 128 ≤ c ∧ c < 192 then
          some (Char.ofNat ((b - 192) * 64 + (c - 128)), bs2)
        else none
    | [] => none
  else if b < 240 then
    match bs with
    | c :: d :: bs3 =>
        if (if b = 224 then 160 else 128) ≤ c ∧ c < (if b = 237 then 160 else 192)
            ∧ 128 ≤ d ∧ d < 192 then
          some (Char.ofNat ((b - 224) * 4096 + (c - 128) * 64 + (d - 128)), bs3)
        else none
    | _ => none
  else if b < 245 then
    match bs with
    | c :: d :: e :: bs4 =>
        if (if b = 240 then 144 else 128) ≤ c ∧ c < (if b = 244 then 144 else 192)
            ∧ 128 ≤ d ∧ d < 192 ∧ 128 ≤ e ∧ e < 192 then
          some (Char.ofNat
            ((b - 240) * 262144 + (c - 128) * 4096 + (d - 128) * 64 + (e - 128)), bs4)
        else none
    | _ => none
  else none

/-- Fueled strict UTF-8 decoding loop. Each step consumes at least the
lead byte, so fuel equal to the byte count always suffices. -/
def utf8DecF : Nat → List Nat → Option (List Char)
  | _, [] => some []
  | 0, _ :: _ => none
  | fuel + 1, b :: bs =>
    match utf8Step b bs with
    | none => none
    | some (ch, rest) => (utf8DecF fuel rest).map (fun cs => ch :: cs)

/-- Strict UTF-8 decoding of a byte list (Python `bytes.decode()`),
`none` meaning `UnicodeDecodeError`. -/
def utf8Dec (l : List Nat) : Option (List Char) := utf8DecF l.length l

/-- Characters that UTF-8 encodes into a single byte. -/
def asciiChar (c : Char) : Prop := c.toNat < 128

instance (c : Char) : Decidable (asciiChar c) := by
  unfold asciiChar; infer_instance

theorem utf8Char_ascii {c : Char} (h : asciiChar c) : utf8Char c = [c.toNat] := by
  simp [utf8Char, asciiChar] at h ⊢
  omega

theorem utf8L_ascii : ∀ cs : List Char, (∀ c ∈ cs, asciiChar c) →
    utf8L cs = cs.map Char.toNat := by
  intro cs
  induction cs with
  | nil => intro _; rfl
  | cons c cs ih =>
      intro h
      have hc := utf8Char_ascii (h c (by simp))
      simp only [utf8L, flatMapL, hc, List.map_cons]
      rw [show flatMapL utf8Char cs = utf8L cs from rfl, ih (fun x hx => h x (by simp [hx]))]
      rfl

theorem utf8Step_lt (b : Nat) (bs : List Nat) (hb : b < 128) :
    utf8Step b bs = some (Char.ofNat b, bs) := by
  simp [utf8Step, hb]

theorem utf8DecF_ascii : ∀ (cs : List Char) (fuel : Nat), cs.length ≤ fuel →
    (∀ c ∈ cs, asciiChar c) → utf8DecF fuel (cs.map Char.toNat) = some cs := by
  intro cs
  induction cs with
  | nil => intro fuel _ _; cases fuel <;> rfl
  | cons c cs ih =>
      intro fuel hf h
      cases fuel with
      | zero => simp at hf
      | succ fuel =>
          have hc : c.toNat < 128 := h c (by simp)
          have hstep := utf8Step_lt c.toNat (cs.map Char.toNat) hc
          simp only [List.map_cons, utf8DecF, hstep]
          rw [ih fuel (by simpa using hf) (fun x hx => h x (by simp [hx]))]
          simp [Char.ofNat_toNat]

theorem utf8Dec_ascii (cs : List Char) (h : ∀ c ∈ cs, asciiChar c) :
    utf8Dec (cs.map Char.toNat) = some cs := by
  unfold utf8Dec
  rw [List.length_map]
  exact utf8DecF_ascii cs cs.length (Nat.le_refl _) h

theorem utf8L_length_ascii (cs : List Char) (h : ∀ c ∈ cs, asciiChar c) :
    (utf8L cs).length = cs.length := by
  rw [utf8L_ascii cs h, List.length_map]

/-! ## Values and formats (`_my_fmt`, `_my_pack`, `_my_decode`) -/

/-- A Python value as it appears in a filterbank header dictionary:
an `int`, a `float` (carried as its 64-bit IEEE bit pattern), a `str`,
or `None`. -/
inductive Value where
  | vint (z : Int)
  | vfloat (w : Nat)
  | vstr (s : String)
  | vnull
  deriving DecidableEq, Repr

/-- A value kind as stored in a `key_fmts` dictionary (the Python types
`int`, `float`, `str`). On the reference platform `_my_fmt` resolves
them to the struct formats `l` (4 bytes under an explicit byte-order
prefix), `d` (8 bytes) and the length-prefixed text layout `U`. -/
inductive Fmt where
  | fint
  | ffloat
  | fstr
  deriving DecidableEq, Repr

/-- `type(value)` as used by `_my_pack` when no format is supplied.
`vnull` never reaches this point in the header encoder because `None`
values are filtered out first. -/
def fmtOfValue : Value → Fmt
  | .vint _ => .fint
  | .vfloat _ => .ffloat
  | .vstr _ => .fstr
  | .vnull => .ffloat

/-- Whether `isinstance(value, fmt)` holds for the Python types that
`check_dict_types` compares against. -/
def isinst : Value → Fmt → Bool
  | .vint _, .fint => true
  | .vfloat _, .ffloat => true
  | .vstr _, .fstr => true
  | _, _ => false

/-- `_my_pack` on a string: `struct.pack(fmt[0] + "I", len(value)) +
value.encode()`. The 4-byte unsigned prefix is the *character* count;
the payload is the UTF-8 encoding. `struct.pack` rejects a length that
does not fit the `I` format. -/
def packStrB (ord : Bord) (s : String) : Except PyErr (List Nat) :=
  if s.length < 4294967296 then
    .ok (encB ord 4 s.length ++ utf8L s.toList)
  else .error .structErr

/-- `_my_pack` on a non-string value with a resolved format. `"=l"` (or
its swapped form) is a standard-size 4-byte signed int and rejects
values outside that range; `"=d"` moves the 8 bytes of the float. Format
and value of different kinds go through Python conversion rules that no
claim depends on, so they map to `unmodeledErr`. -/
def packValB (f : Fmt) (v : Value) (ord : Bord) : Except PyErr (List Nat) :=
  match f, v with
  | .fint, .vint z =>
      if -2147483648 ≤ z ∧ z < 2147483648 then
        .ok (encB ord 4 (z % 4294967296).toNat)
      else .error .structErr
  | .ffloat, .vfloat w =>
      if w < 18446744073709551616 then .ok (encB ord 8 w) else .error .structErr
  | .fstr, .vstr s => packStrB ord s
  | _, _ => .error .unmodeledErr

/-- `_my_decode` with the text format `U`: read 4 bytes (`struct.error`
if fewer remain), interpret them as the character count `n`, read up to
`n` bytes and UTF-8-decode them. A short final read is decoded as-is,
as `io.BytesIO.read` does. -/
def decodeStrB (ord : Bord) (enc : List Nat) : Except PyErr (String × List Nat) :=
  if (enc.take 4).length < 4 then .error .structErr
  else
    match utf8Dec ((enc.drop 4).take (decB ord (enc.take 4))) with
    | some cs => .ok (⟨cs⟩, (enc.drop 4).drop (decB ord (enc.take 4)))
    | none => .error .unicodeErr

/-- Signed reading of a 4-byte unsigned value (struct format `l`). -/
def toSigned32 (n : Nat) : Int :=
  if n < 2147483648 then (n : Int) else (n : Int) - 4294967296

theorem toSigned32_round (z : Int) (h1 : -2147483648 ≤ z) (h2 : z < 2147483648) :
    toSigned32 (z % 4294967296).toNat = z := by
  unfold toSigned32
  split <;> omega

/-- `_my_decode` with a resolved format: text reads a length-prefixed
string, `l` reads 4 bytes as a signed int, `d` reads 8 bytes as a float
bit pattern. `struct.unpack` raises on a short read. -/
def decodeValB (f : Fmt) (ord : Bord) (enc : List Nat) :
    Except PyErr (Value × List Nat) :=
  match f with
  | .fstr =>
      match decodeStrB ord enc with
      | .ok (s, rest) => .ok (.vstr s, rest)
      | .error e => .error e
  | .fint =>
      if (enc.take 4).length < 4 then .error .structErr
      else .ok (.vint (toSigned32 (decB ord (enc.take 4))), enc.drop 4)
  | .ffloat =>
      if (enc.take 8).length < 8 then .error .structErr
      else .ok (.vfloat (decB ord (enc.take 8)), enc.drop 8)

/-- Strings made of single-byte characters. -/
def asciiStr (s : String) : Prop := ∀ c ∈ s.toList, asciiChar c

instance (s : String) : Decidable (asciiStr s) := by
  unfold asciiStr; infer_instance

theorem take_len_append (l r : List α) (n : Nat) (h : l.length = n) :
    (l ++ r).take n = l := by
  subst h; exact List.take_left l r

theorem drop_len_append (l r : List α) (n : Nat) (h : l.length = n) :
    (l ++ r).drop n = r := by
  subst h; exact List.drop_left l r

theorem decodeStrB_round (ord : Bord) (s : String) (rest : List Nat)
    (hascii : asciiStr s) (hlen : s.length < 4294967296) :
    decodeStrB ord (encB ord 4 s.length ++ utf8L s.toList ++ rest) = .ok (s, rest) := by
  have hutf : utf8L s.toList = s.toList.map Char.toNat := utf8L_ascii s.toList hascii
  have hulen : (utf8L s.toList).length = s.length := utf8L_length_ascii s.toList hascii
  unfold decodeStrB
  rw [List.append_assoc]
  rw [take_len_append _ _ 4 (encB_length ord 4 s.length)]
  rw [drop_len_append _ _ 4 (encB_length ord 4 s.length)]
  rw [encB_length]
  simp only [show ¬(4 < 4) from by omega, if_false]
  rw [decB_encB ord 4 s.length (by norm_num; omega)]
  rw [take_len_append _ _ s.length hulen, drop_len_append _ _ s.length hulen]
  rw [hutf, utf8Dec_ascii s.toList hascii]
  rfl

theorem decodeValB_round (f : Fmt) (v : Value) (ord : Bord) (vb rest : List Nat)
    (hascii : ∀ s, v = .vstr s → asciiStr s)
    (hf : f = fmtOfValue v)
    (hpack : packValB f v ord = .ok vb) :
    decodeValB f ord (vb ++ rest) = .ok (v, rest) := by
  cases v with
  | vint z =>
      subst hf
      simp only [fmtOfValue, packValB] at hpack
      split at hpack
      case isTrue hrange =>
        injection hpack with hvb
        subst hvb
        show decodeValB .fint ord _ = _
        unfold decodeValB
        rw [take_len_append _ _ 4 (encB_length ord 4 _)]
        rw [drop_len_append _ _ 4 (encB_length ord 4 _)]
        rw [encB_length]
        simp only [show ¬(4 < 4) from by omega, if_false]
        rw [decB_encB ord 4 (z % 4294967296).toNat (by norm_num; omega)]
        rw [toSigned32_round z hrange.1 hrange.2]
      case isFalse => exact absurd hpack (by simp)
  | vfloat w =>
      subst hf
      simp only [fmtOfValue, packValB] at hpack
      split at hpack
      case isTrue hrange =>
        injection hpack with hvb
        subst hvb
        show decodeValB .ffloat ord _ = _
        unfold decodeValB
        rw [take_len_append _ _ 8 (encB_length ord 8 w)]
        rw [drop_len_append _ _ 8 (encB_length ord 8 w)]
        rw [encB_length]
        simp only [show ¬(8 < 8) from by omega, if_false]
        rw [decB_encB ord 8 w (by norm_num; omega)]
      case isFalse => exact absurd hpack (by simp)
  | vstr s =>
      subst hf
      simp only [fmtOfValue, packValB, packStrB] at hpack
      split at hpack
      case isTrue hlen =>
        injection hpack with hvb
        subst hvb
        show decodeValB .fstr ord _ = _
        unfold decodeValB
        rw [decodeStrB_round ord s rest (hascii s rfl) hlen]
      case isFalse => exact absurd hpack (by simp)
  | vnull =>
      subst hf
      simp [packValB] at hpack

/-! ## Header codec (`dict_to_bytes`, `bytes_to_dict`) -/

/-- A Python dict with string keys, as an insertion-ordered association
list (CPython dicts preserve insertion order). -/
abbrev PyDict (α : Type) := List (String × α)

/-- Association-list lookup (`dict.get(key, None)`). -/
def alookup : PyDict α → String → Option α
  | [], _ => none
  | (k0, v) :: rest, k => if k0 = k then some v else alookup rest k

/-- `d[key] = value` on an insertion-ordered dict: replace in place if
the key exists, else append. -/
def setKV : PyDict α → String → α → PyDict α
  | [], k, v => [(k, v)]
  | (k0, v0) :: rest, k, v =>
      if k0 = k then (k0, v) :: rest else (k0, v0) :: setKV rest k v

/-- A header: the dictionary fed to `dict_to_bytes` / produced by
`bytes_to_dict`. -/
abbrev Header := PyDict Value

/-- The two reserved sentinel keys. -/
def isSentinel (k : String) : Bool :=
  k == "HEADER_START" || k == "HEADER_END"

/-- The `for key, value in kvheader.items()` loop of `dict_to_bytes`:
skip sentinel keys, pack each key as length-prefixed text and its value
with the format from `key_fmts` (falling back to the value's own type). -/
def encodePairs (fmts : PyDict Fmt) (ord : Bord) :
    List (String × Value) → Except PyErr (List Nat)
  | [] => .ok []
  | (k, v) :: rest =>
      if isSentinel k then encodePairs fmts ord rest
      else
        match packStrB ord k with
        | .error e => .error e
        | .ok kb =>
            match packValB ((alookup fmts k).getD (fmtOfValue v)) v ord with
            | .error e => .error e
            | .ok vb =>
                match encodePairs fmts ord rest with
                | .error e => .error e
                | .ok rb => .ok (kb ++ vb ++ rb)

/-- The byte order selected by a boolean `swap` argument: `"S"` swaps
away from the native little-endian order, `"|"` keeps it. -/
def ordOf (swap : Bool) : Bord := if swap then .be else .le

/-- `dict_to_bytes(header, key_fmts, swap)`: drop `None` values, write
the start sentinel, the non-sentinel pairs, and the end sentinel, all in
the byte order selected by `swap` (`"S"` = swapped, `"|"` = native). -/
def dict_to_bytes (header : Header) (fmts : PyDict Fmt) (swap : Bool) :
    Except PyErr (List Nat) :=
  let ord := ordOf swap
  match packStrB ord "HEADER_START" with
  | .error e => .error e
  | .ok sb =>
      match encodePairs fmts ord (header.filter (fun p => decide (p.2 ≠ Value.vnull))) with
      | .error e => .error e
      | .ok body =>
          match packStrB ord "HEADER_END" with
          | .error e => .error e
          | .ok eb => .ok (sb ++ body ++ eb)

/-- The `while True` pair-reading loop of `bytes_to_dict`. In the
recovery path (`bad = true`) the loop first probes for end-of-stream;
in both paths a decoded key equal to `HEADER_END` stops the loop. The
fuel argument only bounds the recursion; `bytes_to_dict` supplies more
fuel than the stream can consume. -/
def decodeLoop (fmts : PyDict Fmt) (ord : Bord) (bad : Bool) :
    Nat → List Nat → Header → Except PyErr Header
  | 0, _, _ => .error .fuelErr
  | fuel + 1, enc, acc =>
      if bad ∧ enc = [] then .ok acc
      else
        match decodeStrB ord enc with
        | .error e => .error e
        | .ok (key, r1) =>
            if key = "HEADER_END" then .ok acc
            else
              match decodeValB ((alookup fmts key).getD Fmt.ffloat) ord r1 with
              | .error e => .error e
              | .ok (v, r2) => decodeLoop fmts ord bad fuel r2 (setKV acc key v)

/-- `bytes_to_dict` after the first text value has been read: compare it
against the start sentinel, enter the recovery path if it differs
(keeping the mis-detected first pair), then loop. -/
def afterFirst (fmts : PyDict Fmt) (ord : Bord) (fuel : Nat) (key0 : String)
    (rest : List Nat) : Except PyErr Header :=
  if key0 ≠ "HEADER_START" then
    match decodeValB ((alookup fmts key0).getD Fmt.ffloat) ord rest with
    | .error e => .error e
    | .ok (v0, r1) => decodeLoop fmts ord true fuel r1 (setKV [] key0 v0)
  else decodeLoop fmts ord false fuel rest []

/-- `bytes_to_dict` with no `UnicodeDecodeError` retry: read the first
text value with the given byte order and continue with `afterFirst`.
This is the body that the retry re-runs after flipping the order. -/
def bytesToDictCore (enc : List Nat) (fmts : PyDict Fmt) (ord : Bord)
    (fuel : Nat) : Except PyErr Header :=
  match decodeStrB ord enc with
  | .error e => .error e
  | .ok (key0, rest) => afterFirst fmts ord fuel key0 rest

/-- `bytes_to_dict(encoded, key_fmts, swap)`: decode the first text
value; on a `UnicodeDecodeError` (only), flip the swap directive, seek
back to the start and retry once, the retried attempt no longer being
guarded. Any other error, and any error after the first value,
propagates. -/
def bytes_to_dict (enc : List Nat) (fmts : PyDict Fmt) (swap : Bool) :
    Except PyErr Header :=
  let ord := ordOf swap
  let fuel := enc.length + 1
  match decodeStrB ord enc with
  | .error .unicodeErr => bytesToDictCore enc fmts ord.flip fuel
  | .error e => .error e
  | .ok (key0, rest) => afterFirst fmts ord fuel key0 rest

/-! ## Header codec lemmas -/

/-- The keys of a dict, in order. -/
def keysOf (l : PyDict α) : List String := l.map Prod.fst

theorem setKV_append (l : PyDict α) (k : String) (v : α) (h : k ∉ keysOf l) :
    setKV l k v = l ++ [(k, v)] := by
  induction l with
  | nil => rfl
  | cons p rest ih =>
      obtain ⟨k0, v0⟩ := p
      have hne : k0 ≠ k := by
        intro hk
        exact h (by simp [keysOf, hk])
      simp only [setKV, if_neg hne, List.cons_append, List.cons.injEq, true_and]
      exact ih (fun hm => h (by simp [keysOf] at hm ⊢; exact Or.inr hm))

theorem packStrB_ok (ord : Bord) (s : String) (b : List Nat)
    (h : packStrB ord s = .ok b) :
    b = encB ord 4 s.length ++ utf8L s.toList ∧ s.length < 4294967296 := by
  unfold packStrB at h
  split at h
  case isTrue hlen =>
    injection h with hb
    exact ⟨hb.symm, hlen⟩
  case isFalse => exact absurd h (by simp)

/-- Text values made of single-byte characters (trivially true for
non-text values). -/
def asciiVal : Value → Prop
  | .vstr s => asciiStr s
  | _ => True

instance : (v : Value) → Decidable (asciiVal v)
  | .vstr s => (inferInstance : Decidable (asciiStr s))
  | .vint _ => .isTrue trivial
  | .vfloat _ => .isTrue trivial
  | .vnull => .isTrue trivial

/-- Conditions on a non-sentinel header pair under which the encoder and
the decoder agree: non-sentinel single-byte key, non-null value, text
values made of single-byte characters, and a `key_fmts` entry matching
the value's own kind. -/
def goodPair (fmts : PyDict Fmt) (p : String × Value) : Prop :=
  isSentinel p.1 = false ∧ asciiStr p.1 ∧ p.2 ≠ Value.vnull ∧
    asciiVal p.2 ∧
    alookup fmts p.1 = some (fmtOfValue p.2)

instance (fmts : PyDict Fmt) (p : String × Value) : Decidable (goodPair fmts p) := by
  unfold goodPair
  infer_instance

theorem encodePairs_cons (fmts : PyDict Fmt) (ord : Bord) (k : String)
    (v : Value) (ps : List (String × Value)) (body : List Nat)
    (hsent : isSentinel k = false)
    (henc : encodePairs fmts ord ((k, v) :: ps) = .ok body) :
    ∃ kb vb rb, packStrB ord k = .ok kb ∧
      packValB ((alookup fmts k).getD (fmtOfValue v)) v ord = .ok vb ∧
      encodePairs fmts ord ps = .ok rb ∧ body = kb ++ vb ++ rb := by
  unfold encodePairs at henc
  rw [if_neg (by simp [hsent])] at henc
  cases hkb : packStrB ord k with
  | error e => rw [hkb] at henc; simp at henc
  | ok kb =>
      rw [hkb] at henc
      cases hvb : packValB ((alookup fmts k).getD (fmtOfValue v)) v ord with
      | error e => rw [hvb] at henc; simp at henc
      | ok vb =>
          rw [hvb] at henc
          cases hrb : encodePairs fmts ord ps with
          | error e => rw [hrb] at henc; simp at henc
          | ok rb =>
              rw [hrb] at henc
              simp only [Except.ok.injEq] at henc
              exact ⟨kb, vb, rb, rfl, rfl, rfl, henc.symm⟩

theorem encodePairs_length_le (fmts : PyDict Fmt) (ord : Bord) :
    ∀ (ps : List (String × Value)) (body : List Nat),
      (∀ p ∈ ps, isSentinel p.1 = false) →
      encodePairs fmts ord ps = .ok body → ps.length ≤ body.length := by
  intro ps
  induction ps with
  | nil => intro body _ _; simp
  | cons p ps ih =>
      intro body hsent henc
      obtain ⟨k, v⟩ := p
      obtain ⟨kb, vb, rb, hkb, _, hrb, hbody⟩ :=
        encodePairs_cons fmts ord k v ps body (hsent (k, v) (by simp)) henc
      obtain ⟨hkbeq, _⟩ := packStrB_ok ord k kb hkb
      have hkblen : 4 ≤ kb.length := by
        rw [hkbeq, List.length_append, encB_length]
        omega
      have hrest := ih rb (fun q hq => hsent q (by simp [hq])) hrb
      subst hbody
      simp only [List.length_append, List.length_cons]
      omega

/-- Running the pair-reading loop over the encoding of a sentinel-free,
well-formed pair list appends exactly those pairs to the accumulator,
whatever terminating tail (`HEADER_END` record or end of stream) follows
the pairs. -/
theorem decodeLoop_pairs (fmts : PyDict Fmt) (ord : Bord) (bad : Bool)
    (tail : List Nat)
    (hterm : ∀ (fuel : Nat) (acc : Header), 0 < fuel →
      decodeLoop fmts ord bad fuel tail acc = .ok acc) :
    ∀ (ps : List (String × Value)) (fuel : Nat) (acc : Header) (body : List Nat),
      encodePairs fmts ord ps = .ok body →
      (∀ p ∈ ps, goodPair fmts p) →
      (keysOf ps).Nodup →
      (∀ k ∈ keysOf ps, k ∉ keysOf acc) →
      ps.length < fuel →
      decodeLoop fmts ord bad fuel (body ++ tail) acc = .ok (acc ++ ps) := by
  intro ps
  induction ps with
  | nil =>
      intro fuel acc body henc _ _ _ hfuel
      have hbody : body = [] := by
        unfold encodePairs at henc
        injection henc with h
        exact h.symm
      subst hbody
      simpa using hterm fuel acc hfuel
  | cons p ps ih =>
      intro fuel acc body henc hgood hnodup hdisj hfuel
      obtain ⟨k, v⟩ := p
      obtain ⟨hsent, hkascii, hvnull, hvascii, hlook⟩ := hgood (k, v) (by simp)
      obtain ⟨kb, vb, rb, hkb, hvb, hrb, hbody⟩ :=
        encodePairs_cons fmts ord k v ps body hsent henc
      obtain ⟨hkbeq, hklen⟩ := packStrB_ok ord k kb hkb
      subst hbody
      subst hkbeq
      cases fuel with
      | zero => omega
      | succ f =>
          rw [decodeLoop]
          rw [show (encB ord 4 k.length ++ utf8L k.toList ++ vb ++ rb) ++ tail
                = encB ord 4 k.length ++ utf8L k.toList ++ (vb ++ (rb ++ tail)) by
              simp [List.append_assoc]]
          rw [if_neg (by
            intro hcon
            have hnil := congrArg List.length hcon.2
            simp [encB_length] at hnil)]
          simp only [decodeStrB_round ord k (vb ++ (rb ++ tail)) hkascii hklen]
          have hkne : ¬(k = "HEADER_END") := by
            intro hk
            rw [hk] at hsent
            simp [isSentinel] at hsent
          rw [if_neg hkne]
          simp only at hlook
          rw [hlook] at hvb
          simp only [Option.getD_some] at hvb
          simp only [hlook, Option.getD_some]
          simp only [decodeValB_round (fmtOfValue v) v ord vb (rb ++ tail)
            (fun s hs => by rw [hs] at hvascii; exact hvascii) rfl hvb]
          have hkacc : k ∉ keysOf acc := hdisj k (by simp [keysOf])
          rw [setKV_append acc k v hkacc]
          have hknotps : k ∉ keysOf ps := by
            have := hnodup
            simp only [keysOf, List.map_cons] at this
            exact (List.nodup_cons.mp this).1
          have hres := ih f (acc ++ [(k, v)]) rb hrb
            (fun q hq => hgood q (by simp [hq]))
            (by
              simp only [keysOf, List.map_cons] at hnodup
              exact (List.nodup_cons.mp hnodup).2)
            (by
              intro k2 hk2 hmem
              simp only [keysOf, List.map_append] at hmem
              rcases List.mem_append.mp hmem with h1 | h1
              · exact hdisj k2
                  (by
                    simp only [keysOf, List.map_cons]
                    exact List.mem_cons_of_mem _ hk2) h1
              · simp only [List.map_cons, List.map_nil, List.mem_cons,
                  List.not_mem_nil, or_false] at h1
                rw [h1] at hk2
                exact hknotps hk2)
            (by simp at hfuel ⊢; omega)
          rw [hres]
          simp

theorem packStrB_ok_of_len (ord : Bord) (s : String) (h : s.length < 4294967296) :
    packStrB ord s = .ok (encB ord 4 s.length ++ utf8L s.toList) := by
  unfold packStrB
  rw [if_pos h]

/-- In the sentinel-delimited path, the loop stops on the `HEADER_END`
record and returns the accumulator. -/
theorem decodeLoop_end (fmts : PyDict Fmt) (ord : Bord) :
    ∀ (fuel : Nat) (acc : Header), 0 < fuel →
      decodeLoop fmts ord false fuel
        (encB ord 4 (String.length "HEADER_END") ++ utf8L "HEADER_END".toList)
        acc = .ok acc := by
  intro fuel acc hf
  cases fuel with
  | zero => omega
  | succ f =>
      rw [decodeLoop]
      rw [if_neg (by simp)]
      have hd := decodeStrB_round ord "HEADER_END" [] (by decide) (by decide)
      rw [List.append_nil] at hd
      simp only [hd]
      simp

/-- In the recovery path, the loop stops at end of stream and returns
the accumulator. -/
theorem decodeLoop_eos (fmts : PyDict Fmt) (ord : Bord) :
    ∀ (fuel : Nat) (acc : Header), 0 < fuel →
      decodeLoop fmts ord true fuel [] acc = .ok acc := by
  intro fuel acc hf
  cases fuel with
  | zero => omega
  | succ f =>
      rw [decodeLoop]
      rw [if_pos ⟨rfl, rfl⟩]

theorem encodePairs_cons_sentinel (fmts : PyDict Fmt) (ord : Bord)
    (k : String) (v : Value) (ps : List (String × Value))
    (h : isSentinel k = true) :
    encodePairs fmts ord ((k, v) :: ps) = encodePairs fmts ord ps := by
  rw [encodePairs]
  rw [if_pos h]

theorem encodePairs_cons_plain (fmts : PyDict Fmt) (ord : Bord)
    (k : String) (v : Value) (ps : List (String × Value))
    (h : isSentinel k = false) :
    encodePairs fmts ord ((k, v) :: ps)
      = (match packStrB ord k with
        | .error e => .error e
        | .ok kb =>
            match packValB ((alookup fmts k).getD (fmtOfValue v)) v ord with
            | .error e => .error e
            | .ok vb =>
                match encodePairs fmts ord ps with
                | .error e => .error e
                | .ok rb => .ok (kb ++ vb ++ rb)) := by
  rw [encodePairs]
  rw [if_neg (by simp [h])]

/-- Sentinel-keyed pairs contribute nothing to the encoded body. -/
theorem encodePairs_skip (fmts : PyDict Fmt) (ord : Bord) :
    ∀ ps : List (String × Value),
      encodePairs fmts ord ps
        = encodePairs fmts ord (ps.filter (fun p => !isSentinel p.1)) := by
  intro ps
  induction ps with
  | nil => rfl
  | cons p ps ih =>
      obtain ⟨k, v⟩ := p
      by_cases hsent : isSentinel k
      · rw [encodePairs_cons_sentinel fmts ord k v ps hsent, ih]
        congr 1
        simp [List.filter_cons, hsent]
      · have hsf : isSentinel k = false := by simpa using hsent
        rw [show List.filter (fun p => !isSentinel p.1) ((k, v) :: ps)
              = (k, v) :: List.filter (fun p => !isSentinel p.1) ps by
            simp [List.filter_cons, hsf]]
        rw [encodePairs_cons_plain fmts ord k v ps hsf,
          encodePairs_cons_plain fmts ord k v _ hsf, ih]

/-- Under "non-sentinel values are non-null", dropping nulls then
sentinels is the same as dropping sentinels. -/
theorem filter_null_sentinel (header : Header)
    (h : ∀ p ∈ header, isSentinel p.1 = false → p.2 ≠ Value.vnull) :
    ((header.filter (fun p => decide (p.2 ≠ Value.vnull))).filter
        (fun p => !isSentinel p.1))
      = header.filter (fun p => !isSentinel p.1) := by
  induction header with
  | nil => rfl
  | cons p ps ih =>
      have hrest := ih (fun q hq hs => h q (by simp [hq]) hs)
      by_cases hsent : isSentinel p.1
      · have hrhs : List.filter (fun p => !isSentinel p.1) (p :: ps)
            = List.filter (fun p => !isSentinel p.1) ps := by
          rw [List.filter_cons, if_neg (by simp [hsent])]
        by_cases hnull : p.2 = Value.vnull
        · have h1 : List.filter (fun p => decide (p.2 ≠ Value.vnull)) (p :: ps)
              = List.filter (fun p => decide (p.2 ≠ Value.vnull)) ps := by
            rw [List.filter_cons, if_neg (by simp [hnull])]
          rw [h1, hrhs, hrest]
        · have h1 : List.filter (fun p => decide (p.2 ≠ Value.vnull)) (p :: ps)
              = p :: List.filter (fun p => decide (p.2 ≠ Value.vnull)) ps := by
            rw [List.filter_cons, if_pos (by simp [hnull])]
          rw [h1, List.filter_cons, if_neg (by simp [hsent]), hrhs, hrest]
      · have hsf : isSentinel p.1 = false := by simpa using hsent
        have hnull := h p (by simp) hsf
        have h1 : List.filter (fun p => decide (p.2 ≠ Value.vnull)) (p :: ps)
            = p :: List.filter (fun p => decide (p.2 ≠ Value.vnull)) ps := by
          rw [List.filter_cons, if_pos (by simp [hnull])]
        have hrhs : List.filter (fun p => !isSentinel p.1) (p :: ps)
            = p :: List.filter (fun p => !isSentinel p.1) ps := by
          rw [List.filter_cons, if_pos (by simp [hsf])]
        rw [h1, hrhs, List.filter_cons, if_pos (by simp [hsf]), hrest]

theorem dict_to_bytes_decomp (header : Header) (fmts : PyDict Fmt) (swap : Bool)
    (enc : List Nat) (h : dict_to_bytes header fmts swap = .ok enc) :
    ∃ body,
      encodePairs fmts (ordOf swap)
          (header.filter (fun p => decide (p.2 ≠ Value.vnull))) = .ok body ∧
      enc = (encB (ordOf swap) 4 (String.length "HEADER_START")
              ++ utf8L "HEADER_START".toList)
          ++ body
          ++ (encB (ordOf swap) 4 (String.length "HEADER_END")
              ++ utf8L "HEADER_END".toList) := by
  unfold dict_to_bytes at h
  simp only [packStrB_ok_of_len (ordOf swap) "HEADER_START" (by decide),
    packStrB_ok_of_len (ordOf swap) "HEADER_END" (by decide)] at h
  cases hb : encodePairs fmts (ordOf swap)
      (header.filter (fun p => decide (p.2 ≠ Value.vnull))) with
  | error e => rw [hb] at h; simp at h
  | ok body =>
      rw [hb] at h
      simp only [Except.ok.injEq] at h
      exact ⟨body, rfl, h.symm⟩

/-- C1 (amended): header round-trip. For every header with unique
string keys whose keys and text values consist of single-byte
characters, whose non-sentinel values are non-null (Integer,
FloatingPoint or Text), and whose keys are mapped by the shared type map
to their value's own kind, decoding the bytes produced by `dict_to_bytes`
(same type map and swap directive on both sides, encoding having
succeeded) returns the header with the two sentinel keys removed. The
original claim also allowed Null values, arbitrary type maps and
multi-byte text, all three of which fail on the code (see the
counterexample). -/
theorem C1_header_roundtrip_amended
    (header : Header) (fmts : PyDict Fmt) (swap : Bool) (enc : List Nat)
    (hkeys : (keysOf header).Nodup)
    (hgood : ∀ p ∈ header, isSentinel p.1 = false → goodPair fmts p)
    (henc : dict_to_bytes header fmts swap = .ok enc) :
    bytes_to_dict enc fmts swap
      = .ok (header.filter (fun p => !isSentinel p.1)) := by
  obtain ⟨body, hbody, hencq⟩ := dict_to_bytes_decomp header fmts swap enc henc
  rw [encodePairs_skip] at hbody
  rw [filter_null_sentinel header (fun p hp hs => (hgood p hp hs).2.2.1)] at hbody
  have hpsgood : ∀ p ∈ header.filter (fun p => !isSentinel p.1), goodPair fmts p := by
    intro p hp
    have hmem := List.mem_filter.mp hp
    exact hgood p hmem.1 (by simpa using hmem.2)
  have hpssent : ∀ p ∈ header.filter (fun p => !isSentinel p.1),
      isSentinel p.1 = false := fun p hp => (hpsgood p hp).1
  have hnodup : (keysOf (header.filter (fun p => !isSentinel p.1))).Nodup :=
    hkeys.sublist ((List.filter_sublist header).map Prod.fst)
  have hlen := encodePairs_length_le fmts (ordOf swap) _ body hpssent hbody
  rw [hencq]
  unfold bytes_to_dict
  simp only [List.append_assoc]
  have hdec0 := decodeStrB_round (ordOf swap) "HEADER_START"
    (body ++ (encB (ordOf swap) 4 (String.length "HEADER_END")
      ++ utf8L "HEADER_END".toList)) (by decide) (by decide)
  simp only [List.append_assoc] at hdec0
  simp only [hdec0]
  unfold afterFirst
  rw [if_neg (by simp)]
  have hres := decodeLoop_pairs fmts (ordOf swap) false
    (encB (ordOf swap) 4 (String.length "HEADER_END") ++ utf8L "HEADER_END".toList)
    (decodeLoop_end fmts (ordOf swap))
    (header.filter (fun p => !isSentinel p.1))
    (((encB (ordOf swap) 4 (String.length "HEADER_START")
          ++ utf8L "HEADER_START".toList)
        ++ body
        ++ (encB (ordOf swap) 4 (String.length "HEADER_END")
          ++ utf8L "HEADER_END".toList)).length + 1)
    [] body hbody hpsgood hnodup (by simp [keysOf])
    (by
      simp only [List.length_append]
      omega)
  simp only [List.append_assoc] at hres
  rw [hres]
  simp

/-- C1 witness: the amended round-trip at the header
`{telescope_id: 1, rawdatafile: "x.fil"}` with the matching type map. -/
theorem C1_header_roundtrip_witness :
    bytes_to_dict
      [12, 0, 0, 0, 72, 69, 65, 68, 69, 82, 95, 83, 84, 65, 82, 84,
       12, 0, 0, 0, 116, 101, 108, 101, 115, 99, 111, 112, 101, 95, 105, 100,
       1, 0, 0, 0,
       11, 0, 0, 0, 114, 97, 119, 100, 97, 116, 97, 102, 105, 108, 101,
       5, 0, 0, 0, 120, 46, 102, 105, 108,
       10, 0, 0, 0, 72, 69, 65, 68, 69, 82, 95, 69, 78, 68]
      [("telescope_id", Fmt.fint), ("rawdatafile", Fmt.fstr)] false
      = .ok [("telescope_id", Value.vint 1), ("rawdatafile", Value.vstr "x.fil")] :=
  C1_header_roundtrip_amended
    [("telescope_id", Value.vint 1), ("rawdatafile", Value.vstr "x.fil")]
    [("telescope_id", Fmt.fint), ("rawdatafile", Fmt.fstr)] false
    [12, 0, 0, 0, 72, 69, 65, 68, 69, 82, 95, 83, 84, 65, 82, 84,
     12, 0, 0, 0, 116, 101, 108, 101, 115, 99, 111, 112, 101, 95, 105, 100,
     1, 0, 0, 0,
     11, 0, 0, 0, 114, 97, 119, 100, 97, 116, 97, 102, 105, 108, 101,
     5, 0, 0, 0, 120, 46, 102, 105, 108,
     10, 0, 0, 0, 72, 69, 65, 68, 69, 82, 95, 69, 78, 68]
    (by decide) (by decide) (by decide)

/-- C1 counterexample: the round-trip fails as originally stated.
A Null-valued entry is dropped by the encoder (decoding returns the
empty header); an Integer entry absent from the type map is decoded
with the float default and the decode aborts; a multi-byte key breaks
the character-count prefix and the decode aborts. -/
theorem C1_header_roundtrip_counterexample :
    (dict_to_bytes [("az_start", Value.vnull)] [("az_start", Fmt.ffloat)] false
        = .ok [12, 0, 0, 0, 72, 69, 65, 68, 69, 82, 95, 83, 84, 65, 82, 84,
               10, 0, 0, 0, 72, 69, 65, 68, 69, 82, 95, 69, 78, 68]
      ∧ bytes_to_dict [12, 0, 0, 0, 72, 69, 65, 68, 69, 82, 95, 83, 84, 65, 82, 84,
               10, 0, 0, 0, 72, 69, 65, 68, 69, 82, 95, 69, 78, 68]
          [("az_start", Fmt.ffloat)] false = .ok []
      ∧ ([] : Header) ≠ [("az_start", Value.vnull)])
    ∧ (dict_to_bytes [("k", Value.vint 1)] [] false
        = .ok [12, 0, 0, 0, 72, 69, 65, 68, 69, 82, 95, 83, 84, 65, 82, 84,
               1, 0, 0, 0, 107, 1, 0, 0, 0,
               10, 0, 0, 0, 72, 69, 65, 68, 69, 82, 95, 69, 78, 68]
      ∧ bytes_to_dict [12, 0, 0, 0, 72, 69, 65, 68, 69, 82, 95, 83, 84, 65, 82, 84,
               1, 0, 0, 0, 107, 1, 0, 0, 0,
               10, 0, 0, 0, 72, 69, 65, 68, 69, 82, 95, 69, 78, 68] [] false
          = .error .structErr)
    ∧ (dict_to_bytes [("é", Value.vint 1)] [("é", Fmt.fint)] false
        = .ok [12, 0, 0, 0, 72, 69, 65, 68, 69, 82, 95, 83, 84, 65, 82, 84,
               1, 0, 0, 0, 195, 169, 1, 0, 0, 0,
               10, 0, 0, 0, 72, 69, 65, 68, 69, 82, 95, 69, 78, 68]
      ∧ bytes_to_dict [12, 0, 0, 0, 72, 69, 65, 68, 69, 82, 95, 83, 84, 65, 82, 84,
               1, 0, 0, 0, 195, 169, 1, 0, 0, 0,
               10, 0, 0, 0, 72, 69, 65, 68, 69, 82, 95, 69, 78, 68]
          [("é", Fmt.fint)] false = .error .unicodeErr) := by
  decide

/-- C6: recovery without data loss. A header byte stream consisting of
encoded (key, value) records with no start sentinel (well-formed pairs,
unique non-sentinel single-byte keys, type map matching each value's
kind) decodes through the recovery path into exactly those pairs: the
mis-detected first pair is kept and reading continues until the stream
is exhausted. -/
theorem C6_recovery_no_data_loss
    (ps : List (String × Value)) (fmts : PyDict Fmt) (swap : Bool)
    (body : List Nat)
    (hne : ps ≠ [])
    (hgood : ∀ p ∈ ps, goodPair fmts p)
    (hnodup : (keysOf ps).Nodup)
    (henc : encodePairs fmts (ordOf swap) ps = .ok body) :
    bytes_to_dict body fmts swap = .ok ps := by
  match ps, hne with
  | (k0, v0) :: rest, _ =>
      obtain ⟨hsent, hkascii, hvnull, hvascii, hlook⟩ := hgood (k0, v0) (by simp)
      obtain ⟨kb, vb, rb, hkb, hvb, hrb, hbody⟩ :=
        encodePairs_cons fmts (ordOf swap) k0 v0 rest body hsent henc
      obtain ⟨hkbeq, hklen⟩ := packStrB_ok (ordOf swap) k0 kb hkb
      subst hbody
      subst hkbeq
      unfold bytes_to_dict
      simp only [List.append_assoc]
      have hdec0 := decodeStrB_round (ordOf swap) k0 (vb ++ rb) hkascii hklen
      simp only [List.append_assoc] at hdec0
      simp only [hdec0]
      unfold afterFirst
      have hk0ne : k0 ≠ "HEADER_START" := by
        intro hk
        rw [hk] at hsent
        simp [isSentinel] at hsent
      rw [if_pos hk0ne]
      simp only at hlook
      rw [hlook] at hvb ⊢
      simp only [Option.getD_some] at hvb ⊢
      simp only [decodeValB_round (fmtOfValue v0) v0 (ordOf swap) vb rb
        (fun s hs => by rw [hs] at hvascii; exact hvascii) rfl hvb]
      have hknotrest : k0 ∉ keysOf rest := by
        simp only [keysOf, List.map_cons] at hnodup
        exact (List.nodup_cons.mp hnodup).1
      have hres := decodeLoop_pairs fmts (ordOf swap) true []
        (decodeLoop_eos fmts (ordOf swap)) rest
        ((encB (ordOf swap) 4 k0.length ++ utf8L k0.toList ++ vb ++ rb).length + 1)
        (setKV [] k0 v0) rb hrb
        (fun q hq => hgood q (by simp [hq]))
        (by
          simp only [keysOf, List.map_cons] at hnodup
          exact (List.nodup_cons.mp hnodup).2)
        (by
          intro k2 hk2 hmem
          simp only [setKV, keysOf, List.map_cons, List.map_nil,
            List.mem_cons, List.not_mem_nil, or_false] at hmem
          rw [hmem] at hk2
          exact hknotrest hk2)
        (by
          have hlen := encodePairs_length_le fmts (ordOf swap) rest rb
            (fun q hq => (hgood q (by simp [hq])).1) hrb
          simp only [List.length_append]
          omega)
      rw [List.append_nil] at hres
      simp only [List.append_assoc] at hres
      rw [hres]
      simp [setKV]

/-- C6 witness: the stream `key1` + float-8.0 with no sentinels decodes
to `{key1: 8.0}` (8.0 has IEEE bit pattern 0x4020000000000000). -/
theorem C6_recovery_witness :
    bytes_to_dict
      [4, 0, 0, 0, 107, 101, 121, 49, 0, 0, 0, 0, 0, 0, 32, 64]
      [("key1", Fmt.ffloat)] false
      = .ok [("key1", Value.vfloat 4620693217682128896)] :=
  C6_recovery_no_data_loss
    [("key1", Value.vfloat 4620693217682128896)]
    [("key1", Fmt.ffloat)] false
    [4, 0, 0, 0, 107, 101, 121, 49, 0, 0, 0, 0, 0, 0, 32, 64]
    (by decide) (by decide) (by decide) (by decide)

/-- C5: byte-order retry. If decoding the very first text value raises
`UnicodeDecodeError`, `bytes_to_dict` seeks back to the start of the
stream, flips the swap directive and re-runs the unguarded decode body
with the flipped directive (first conjunct); any other first-read error
propagates (second conjunct); a successful first read continues without
any retry, later failures propagating through `afterFirst` (third
conjunct); and if the retried first decode fails again, with any error,
that error reaches the caller (fourth conjunct). -/
theorem C5_byte_order_retry (enc : List Nat) (fmts : PyDict Fmt) (swap : Bool) :
    (decodeStrB (ordOf swap) enc = .error .unicodeErr →
      bytes_to_dict enc fmts swap
        = bytesToDictCore enc fmts (ordOf swap).flip (enc.length + 1))
    ∧ (∀ e : PyErr, e ≠ .unicodeErr → decodeStrB (ordOf swap) enc = .error e →
        bytes_to_dict enc fmts swap = .error e)
    ∧ (∀ kr : String × List Nat, decodeStrB (ordOf swap) enc = .ok kr →
        bytes_to_dict enc fmts swap
          = afterFirst fmts (ordOf swap) (enc.length + 1) kr.1 kr.2)
    ∧ (∀ e : PyErr, decodeStrB (ordOf swap) enc = .error .unicodeErr →
        decodeStrB ((ordOf swap).flip) enc = .error e →
        bytes_to_dict enc fmts swap = .error e) := by
  refine ⟨?_, ?_, ?_, ?_⟩
  · intro h
    unfold bytes_to_dict
    simp only [h]
  · intro e hne h
    unfold bytes_to_dict
    cases e <;> (simp only [h]; try rfl)
    exact absurd rfl hne
  · intro kr h
    obtain ⟨k, r⟩ := kr
    unfold bytes_to_dict
    simp only [h]
  · intro e h1 h2
    unfold bytes_to_dict
    simp only [h1]
    unfold bytesToDictCore
    simp only [h2]

/-- C5 witness: the stream `[1,0,0,0,0x80]` (length-1 text whose byte is
an invalid UTF-8 lone continuation byte) fails the first native-order
text decode, so the decoder re-runs with the swapped order. -/
theorem C5_byte_order_retry_witness :
    bytes_to_dict [1, 0, 0, 0, 128] [] false
      = bytesToDictCore [1, 0, 0, 0, 128] [] Bord.be 6 :=
  (C5_byte_order_retry [1, 0, 0, 0, 128] [] false).1 (by decide)

/-! ## Header validation (`check_dict_types`) -/

/-- A validation diagnostic (a `warnings.warn` call). -/
inductive Diag where
  | typeMismatch (key : String)
  | unexpectedKey (key : String)
  deriving DecidableEq, Repr

/-- The `for key, value in header.items()` loop of `check_dict_types`,
carrying the local variable `good` (`none` = not yet assigned, as in
Python before the first assignment) and the warnings emitted so far. -/
def cdtLoop (fmts : PyDict Fmt) (warn : Bool) :
    List (String × Value) → Option Bool → List Diag → Option Bool × List Diag
  | [], good, ws => (good, ws)
  | (k, v) :: rest, good, ws =>
      match alookup fmts k with
      | some ft =>
          if v ≠ Value.vnull ∧ isinst v ft = false then
            cdtLoop fmts warn rest (some false)
              (ws ++ if warn then [Diag.typeMismatch k] else [])
          else cdtLoop fmts warn rest good ws
      | none =>
          cdtLoop fmts warn rest (some false)
            (ws ++ if warn then [Diag.unexpectedKey k] else [])

/-- `check_dict_types(header, key_fmts, warn)`. The local `good` is only
ever assigned (to `False`) in the two failure branches, so `return good`
raises `UnboundLocalError` whenever no entry failed. -/
def check_dict_types (header : Header) (fmts : PyDict Fmt) (warn : Bool) :
    Except PyErr (Bool × List Diag) :=
  match cdtLoop fmts warn header none [] with
  | (some b, ws) => .ok (b, ws)
  | (none, _) => .error .unboundLocalErr

/-- Local helper: the loop can only leave `good` unassigned or `False`. -/
theorem cdtLoop_never_true (fmts : PyDict Fmt) (warn : Bool) :
    ∀ (l : List (String × Value)) (good : Option Bool) (ws : List Diag),
      good = none ∨ good = some false →
      (cdtLoop fmts warn l good ws).1 = none
        ∨ (cdtLoop fmts warn l good ws).1 = some false := by
  intro l
  induction l with
  | nil => intro good ws h; exact h
  | cons p rest ih =>
      intro good ws h
      obtain ⟨k, v⟩ := p
      rw [cdtLoop]
      split
      · split
        · exact ih _ _ (Or.inr rfl)
        · exact ih _ _ h
      · exact ih _ _ (Or.inr rfl)

/-- C4 (code bug): validation is not total. On a fully valid header the
code raises `UnboundLocalError` instead of returning `ok = True` (its
own test asserts `result is True` there), because the local `good` is
never initialised; it is assigned only `False`, so a `True` result is
unreachable. Diagnostics for mismatches and unknown keys do work, as
the second and third conjuncts show. -/
theorem C4_validate_unbound_local :
    (check_dict_types
        [("telescope_id", Value.vint 1), ("source_name", Value.vstr "x")]
        [("telescope_id", Fmt.fint), ("source_name", Fmt.fstr)] true
      = .error .unboundLocalErr)
    ∧ (check_dict_types
        [("telescope_id", Value.vstr "a"), ("source_name", Value.vstr "x")]
        [("telescope_id", Fmt.fint), ("source_name", Fmt.fstr)] true
      = .ok (false, [Diag.typeMismatch "telescope_id"]))
    ∧ (check_dict_types
        [("telescope_id", Value.vint 1), ("nope", Value.vint 2)]
        [("telescope_id", Fmt.fint), ("source_name", Fmt.fstr)] true
      = .ok (false, [Diag.unexpectedKey "nope"])) := by
  decide

/-! ## Array codec (`data_to_bytes`, `bytes_to_data`) -/

/-- A numpy scalar dtype as the array codec uses it: an element byte
width and a byte order. The `itemsize` field also stands for
`dtype.alignment`, which `bytes_to_data` reads; the two coincide for
the scalar dtypes in scope (i2/i4/i8/f4/f8, ...) on the reference
platform. Elements are carried as their bit patterns (`Nat` below
`256^itemsize`); the codec only moves bytes, never interpreting them
numerically. -/
structure Dtype where
  itemsize : Nat
  bord : Bord
  deriving DecidableEq, Repr

/-- `np.dtype.newbyteorder("S")`. -/
def Dtype.swapped (d : Dtype) : Dtype := ⟨d.itemsize, d.bord.flip⟩

/-- The dtype actually used after the `swap` argument is applied. -/
def dtypeOf (swap : Bool) (fmt : Dtype) : Dtype :=
  if swap then fmt.swapped else fmt

theorem dtypeOf_itemsize (swap : Bool) (fmt : Dtype) :
    (dtypeOf swap fmt).itemsize = fmt.itemsize := by
  cases swap <;> rfl

/-- numpy index order used for flattening/reshaping: `"C"` (row-major)
or `"F"` (Fortran / column-major). -/
inductive MOrder where
  | C
  | F
  deriving DecidableEq, Repr

/-- A numpy ndarray as the array codec produces it: one- or
two-dimensional, elements as bit patterns. -/
inductive NDArr where
  | one (xs : List Nat)
  | two (rows : List (List Nat))
  deriving DecidableEq, Repr

/-- Bytes of one element of dtype `d`. -/
def encElem (d : Dtype) (n : Nat) : List Nat := encB d.bord d.itemsize n

/-- Element value of one `itemsize`-wide byte chunk. -/
def decElem (d : Dtype) (bs : List Nat) : Nat := decB d.bord bs

theorem decElem_encElem (d : Dtype) (n : Nat) (h : n < 256 ^ d.itemsize) :
    decElem d (encElem d n) = n := decB_encB d.bord d.itemsize n h

/-- The element traversal of `ndarray.tobytes(order)`: row-major (`C`)
concatenates the rows; column-major (`F`) walks the first index fastest,
reading column `j` of every row for `j = 0, ..., r-1`. A 1-D array reads
identically either way. -/
def flattenOrd (a : NDArr) (order : MOrder) : List Nat :=
  match a, order with
  | .one xs, _ => xs
  | .two rows, .C => flatMapL (fun row => row) rows
  | .two rows, .F =>
      flatMapL (fun j => rows.map (fun row => row.getD j 0))
        (List.range ((rows.getD 0 []).length))

/-- `data_to_bytes(data, fmt, order, swap)`:
`np.asarray(data, dtype=fmt).tobytes(order)`, the dtype being byte-order
swapped first when `swap` is set. -/
def data_to_bytes (data : NDArr) (fmt : Dtype) (order : MOrder) (swap : Bool) :
    List Nat :=
  flatMapL (encElem (dtypeOf swap fmt)) (flattenOrd data order)

/-- Fueled splitter for `chunksOf`: each produced chunk consumes at
least one element, so fuel equal to the list length always suffices. -/
def chunksOfF : Nat → Nat → List α → List (List α)
  | 0, _, _ => []
  | _, _, [] => []
  | _, 0, _ :: _ => []
  | fuel + 1, w + 1, x :: xs =>
      (x :: xs).take (w + 1) :: chunksOfF fuel (w + 1) ((x :: xs).drop (w + 1))

/-- Splitting a list into consecutive `w`-sized chunks. -/
def chunksOf (w : Nat) (l : List α) : List (List α) := chunksOfF l.length w l

theorem chunksOfF_irrel (w : Nat) : ∀ (fuel : Nat) (l : List α),
    l.length ≤ fuel → chunksOfF fuel w l = chunksOfF l.length w l := by
  intro fuel
  induction fuel using Nat.strong_induction_on with
  | _ fuel ih =>
      intro l h
      cases l with
      | nil =>
          cases fuel with
          | zero => rfl
          | succ fuel => cases w <;> rfl
      | cons x xs =>
          cases fuel with
          | zero => simp at h
          | succ fuel =>
              cases w with
              | zero => rw [List.length_cons]; rfl
              | succ w2 =>
                  rw [List.length_cons]
                  rw [chunksOfF, chunksOfF]
                  congr 1
                  have hxf : xs.length ≤ fuel := by
                    simp only [List.length_cons] at h
                    omega
                  have hdl : ((x :: xs).drop (w2 + 1)).length ≤ fuel := by
                    simp only [List.length_drop, List.length_cons]
                    omega
                  have hdl2 : ((x :: xs).drop (w2 + 1)).length ≤ xs.length := by
                    simp only [List.length_drop, List.length_cons]
                    omega
                  rw [ih fuel (by omega) _ hdl, ih xs.length (by omega) _ hdl2]

/-- `np.ndarray.reshape((c, r), order)` of a flat element list: entry
`(i, j)` of the result is `flat[i*r + j]` in C order and `flat[j*c + i]`
in F order. -/
def reshapeOrd (flat : List Nat) (c r : Nat) (order : MOrder) :
    List (List Nat) :=
  match order with
  | .C => (List.range c).map (fun i => (List.range r).map (fun j => flat.getD (i * r + j) 0))
  | .F => (List.range c).map (fun i => (List.range r).map (fun j => flat.getD (j * c + i) 0))

/-- `bytes_to_data(encoded, n_cols, fmt, order, swap)`: `np.frombuffer`
(which rejects a buffer whose size is not a multiple of the element
size), `n_records = int(total_bytes / n_cols / bytes_per_data)`,
`reshape((n_cols, n_records), order)` (which rejects a mismatched
element count), and flattening when `n_cols == 1`. -/
def bytes_to_data (enc : List Nat) (n_cols : Nat) (fmt : Dtype)
    (order : MOrder) (swap : Bool) : Except PyErr NDArr :=
  if (dtypeOf swap fmt).itemsize = 0 then .error .unmodeledErr
  else if enc.length % (dtypeOf swap fmt).itemsize ≠ 0 then .error .bufferSizeErr
  else if n_cols = 0 then .error .zeroDivErr
  else if ((chunksOf (dtypeOf swap fmt).itemsize enc).map
        (decElem (dtypeOf swap fmt))).length
      ≠ n_cols * (enc.length / n_cols / (dtypeOf swap fmt).itemsize) then
    .error .reshapeErr
  else if n_cols = 1 then
    .ok (.one (flatMapL (fun row => row)
      (reshapeOrd ((chunksOf (dtypeOf swap fmt).itemsize enc).map
          (decElem (dtypeOf swap fmt)))
        n_cols (enc.length / n_cols / (dtypeOf swap fmt).itemsize) order)))
  else
    .ok (.two (reshapeOrd ((chunksOf (dtypeOf swap fmt).itemsize enc).map
        (decElem (dtypeOf swap fmt)))
      n_cols (enc.length / n_cols / (dtypeOf swap fmt).itemsize) order))

/-! ## Array codec lemmas -/

theorem chunksOf_cons_of_ne_nil (w : Nat) (hw : 0 < w) (l : List α) (hl : l ≠ []) :
    chunksOf w l = l.take w :: chunksOf w (l.drop w) := by
  match w, hw, l, hl with
  | w + 1, _, x :: xs, _ =>
      unfold chunksOf
      rw [List.length_cons, chunksOfF]
      congr 1
      exact chunksOfF_irrel (w + 1) xs.length ((x :: xs).drop (w + 1))
        (by simp only [List.length_drop, List.length_cons]; omega)

theorem chunksOf_flatMapL (g : α → List β) (w : Nat) (hw : 0 < w) :
    ∀ xs : List α, (∀ x ∈ xs, (g x).length = w) →
      chunksOf w (flatMapL g xs) = xs.map g := by
  intro xs
  induction xs with
  | nil =>
      intro _
      cases w with
      | zero => omega
      | succ w => rfl
  | cons x xs ih =>
      intro h
      have hx := h x (by simp)
      have hne : flatMapL g (x :: xs) ≠ [] := by
        intro hcon
        have := congrArg List.length hcon
        simp only [flatMapL, List.length_append, hx, List.length_nil] at this
        omega
      rw [show flatMapL g (x :: xs) = g x ++ flatMapL g xs from rfl] at hne ⊢
      rw [chunksOf_cons_of_ne_nil w hw _ hne]
      rw [take_len_append _ _ w hx, drop_len_append _ _ w hx]
      rw [ih (fun y hy => h y (by simp [hy]))]
      rfl

theorem chunksOf_length_mul (w : Nat) (hw : 0 < w) :
    ∀ (k : Nat) (l : List α), l.length = w * k → (chunksOf w l).length = k := by
  intro k
  induction k with
  | zero =>
      intro l hl
      simp only [Nat.mul_zero] at hl
      rw [List.eq_nil_of_length_eq_zero hl]
      cases w with
      | zero => omega
      | succ w => rfl
  | succ k ih =>
      intro l hl
      rw [Nat.mul_succ] at hl
      have hpos : 0 < l.length := by
        rw [hl]
        exact Nat.lt_of_lt_of_le hw (Nat.le_add_left w (w * k))
      have hne : l ≠ [] := List.ne_nil_of_length_pos hpos
      rw [chunksOf_cons_of_ne_nil w hw l hne]
      have hdrop : (l.drop w).length = w * k := by
        rw [List.length_drop, hl, Nat.add_sub_cancel]
      simp [List.length_cons, ih (l.drop w) hdrop]

theorem map_range_congr (n : Nat) (f g : Nat → α) (h : ∀ j < n, f j = g j) :
    (List.range n).map f = (List.range n).map g :=
  List.map_congr_left (fun j hj => h j (List.mem_range.mp hj))

theorem map_range_getD (l : List α) (n : Nat) (d : α) (h : l.length = n) :
    (List.range n).map (fun i => l.getD i d) = l := by
  apply List.ext_getElem
  · simp [h]
  · intro i h1 h2
    simp only [List.getElem_map, List.getElem_range]
    rw [List.getD_eq_getElem l d h2]

theorem flatMapL_mem (f : α → List β) :
    ∀ (xs : List α) (y : β), y ∈ flatMapL f xs → ∃ x ∈ xs, y ∈ f x := by
  intro xs
  induction xs with
  | nil => intro y hy; simp [flatMapL] at hy
  | cons x xs ih =>
      intro y hy
      simp only [flatMapL, List.mem_append] at hy
      rcases hy with hy | hy
      · exact ⟨x, by simp, hy⟩
      · obtain ⟨x2, hx2, hyx2⟩ := ih y hy
        exact ⟨x2, by simp [hx2], hyx2⟩

/-- Decoding the chunked bytes of an encoded element list recovers the
elements. -/
theorem chunks_dec_enc (dt : Dtype) (hw : 0 < dt.itemsize)
    (flat : List Nat) (hel : ∀ x ∈ flat, x < 256 ^ dt.itemsize) :
    (chunksOf dt.itemsize (flatMapL (encElem dt) flat)).map (decElem dt) = flat := by
  rw [chunksOf_flatMapL (encElem dt) dt.itemsize hw flat
    (fun x _ => encB_length dt.bord dt.itemsize x)]
  rw [List.map_map]
  have : ∀ x ∈ flat, (decElem dt ∘ encElem dt) x = id x := by
    intro x hx
    simp only [Function.comp_apply, id_eq]
    exact decElem_encElem dt x (hel x hx)
  rw [List.map_congr_left this, List.map_id]

/-- Reshaping the C-order flattening of a rectangular matrix recovers
the matrix. -/
theorem reshapeC_round (rows : List (List Nat)) (c r : Nat)
    (hc : rows.length = c) (hr : ∀ row ∈ rows, row.length = r) :
    reshapeOrd (flatMapL (fun row => row) rows) c r .C = rows := by
  unfold reshapeOrd
  apply List.ext_getElem
  · simp [hc]
  · intro i h1 h2
    simp only [List.getElem_map, List.getElem_range]
    have hic : i < c := by simpa using h1
    have hirows : i < rows.length := by omega
    rw [map_range_congr r _ (fun j => (rows[i]).getD j 0)
      (fun j hj => flatMapL_getD_uniform (fun row => row) r 0 rows i j
        (fun row hrow => hr row hrow) hirows hj)]
    exact map_range_getD rows[i] r 0 (hr rows[i] (rows.getElem_mem hirows))

/-- Reshaping the F-order flattening of a rectangular matrix recovers
the matrix. -/
theorem reshapeF_round (rows : List (List Nat)) (c r : Nat)
    (hc : rows.length = c) (hcpos : 0 < c) (hr : ∀ row ∈ rows, row.length = r) :
    reshapeOrd
        (flatMapL (fun j => rows.map (fun row => row.getD j 0))
          (List.range ((rows.getD 0 []).length)))
        c r .F = rows := by
  have hrows0 : (rows.getD 0 []).length = r := by
    have h0 : 0 < rows.length := by omega
    rw [List.getD_eq_getElem rows [] h0]
    exact hr rows[0] (rows.getElem_mem h0)
  rw [hrows0]
  unfold reshapeOrd
  apply List.ext_getElem
  · simp [hc]
  · intro i h1 h2
    simp only [List.getElem_map, List.getElem_range]
    have hic : i < c := by simpa using h1
    have hirows : i < rows.length := by omega
    have hstep : ∀ j < r,
        (flatMapL (fun j => rows.map (fun row => row.getD j 0))
          (List.range r)).getD (j * c + i) 0 = (rows[i]).getD j 0 := by
      intro j hj
      have hmaplen : ∀ q ∈ List.range r, (rows.map (fun row => row.getD q 0)).length = c := by
        intro q _
        simp [hc]
      have := flatMapL_getD_uniform (fun q => rows.map (fun row => row.getD q 0)) c 0
        (List.range r) j i hmaplen (by simpa using hj) hic
      rw [this]
      simp only [List.getElem_range]
      rw [List.getD_eq_getElem _ 0 (by simp [hc]; omega)]
      simp only [List.getElem_map]
    rw [map_range_congr r _ (fun j => (rows[i]).getD j 0) hstep]
    exact map_range_getD rows[i] r 0 (hr rows[i] (rows.getElem_mem hirows))

/-- The whole decode applied to the encoding of a flat element list:
every guard passes and the decode reduces to the reshape of the list. -/
theorem bytes_to_data_flat (flat : List Nat) (c r : Nat) (fmt : Dtype)
    (order : MOrder) (swap : Bool)
    (hw : 0 < fmt.itemsize) (hcpos : 0 < c)
    (hflen : flat.length = c * r)
    (hel : ∀ x ∈ flat, x < 256 ^ fmt.itemsize) :
    bytes_to_data (flatMapL (encElem (dtypeOf swap fmt)) flat) c fmt order swap
      = if c = 1 then
          .ok (.one (flatMapL (fun row => row) (reshapeOrd flat c r order)))
        else .ok (.two (reshapeOrd flat c r order)) := by
  have hw2 : 0 < (dtypeOf swap fmt).itemsize := by
    rw [dtypeOf_itemsize]
    exact hw
  have hel2 : ∀ x ∈ flat, x < 256 ^ (dtypeOf swap fmt).itemsize := by
    intro x hx
    rw [dtypeOf_itemsize]
    exact hel x hx
  have hencln : (flatMapL (encElem (dtypeOf swap fmt)) flat).length
      = flat.length * (dtypeOf swap fmt).itemsize :=
    flatMapL_length_uniform _ _ flat
      (fun x _ => encB_length (dtypeOf swap fmt).bord (dtypeOf swap fmt).itemsize x)
  have hmod : (flatMapL (encElem (dtypeOf swap fmt)) flat).length
      % (dtypeOf swap fmt).itemsize = 0 := by
    rw [hencln]
    exact Nat.mul_mod_left flat.length (dtypeOf swap fmt).itemsize
  have hdata := chunks_dec_enc (dtypeOf swap fmt) hw2 flat hel2
  have hnr : (flatMapL (encElem (dtypeOf swap fmt)) flat).length / c
      / (dtypeOf swap fmt).itemsize = r := by
    rw [hencln, hflen, Nat.div_div_eq_div_mul]
    rw [show c * r * (dtypeOf swap fmt).itemsize
        = c * (dtypeOf swap fmt).itemsize * r by ring]
    exact Nat.mul_div_cancel_left r (Nat.mul_pos hcpos hw2)
  unfold bytes_to_data
  rw [if_neg (by omega)]
  rw [if_neg (by omega)]
  rw [if_neg (by omega)]
  rw [hdata, hnr]
  rw [if_neg (by simp [hflen])]

/-- Reshaping a flat list to a single row and flattening again is the
identity, in either index order. -/
theorem flatten_reshape_one (flat : List Nat) (r : Nat) (order : MOrder)
    (hlen : flat.length = r) :
    flatMapL (fun row => row) (reshapeOrd flat 1 r order) = flat := by
  cases order with
  | C =>
      simp only [reshapeOrd, show List.range 1 = [0] from by decide,
        List.map_cons, List.map_nil]
      rw [show ∀ l : List Nat, flatMapL (fun row => row) [l] = l ++ [] from
        fun l => rfl]
      rw [List.append_nil]
      rw [map_range_congr r _ (fun j => flat.getD j 0)
        (fun j hj => by norm_num)]
      exact map_range_getD flat r 0 hlen
  | F =>
      simp only [reshapeOrd, show List.range 1 = [0] from by decide,
        List.map_cons, List.map_nil]
      rw [show ∀ l : List Nat, flatMapL (fun row => row) [l] = l ++ [] from
        fun l => rfl]
      rw [List.append_nil]
      rw [map_range_congr r _ (fun j => flat.getD j 0)
        (fun j hj => by norm_num)]
      exact map_range_getD flat r 0 hlen

/-- C2 (amended): array round-trip. For every rectangular matrix of
shape `(c, r)` with `c ≥ 1` rows of elements below the dtype's range,
decoding the encoder's bytes with column count `c`, the same element
type and the same major order returns the matrix — as a two-dimensional
array when `c ≥ 2`, but flattened to a one-dimensional array when
`c = 1`, because `bytes_to_data` flattens single-column results. The
original claim asserted equality with the input for every `c`, which
fails at `c = 1` (see the counterexample). -/
theorem C2_array_roundtrip_amended (rows : List (List Nat)) (c r : Nat)
    (fmt : Dtype) (order : MOrder) (swap : Bool)
    (hw : 0 < fmt.itemsize) (hcpos : 0 < c) (hc : rows.length = c)
    (hr : ∀ row ∈ rows, row.length = r)
    (hel : ∀ row ∈ rows, ∀ x ∈ row, x < 256 ^ fmt.itemsize) :
    bytes_to_data (data_to_bytes (.two rows) fmt order swap) c fmt order swap
      = if c = 1 then .ok (.one (flattenOrd (.two rows) order))
        else .ok (.two rows) := by
  cases order with
  | C =>
      have hflen : (flattenOrd (.two rows) .C).length = c * r := by
        show (flatMapL (fun row => row) rows).length = c * r
        rw [flatMapL_length_uniform _ r rows hr, hc]
      have helf : ∀ x ∈ flattenOrd (.two rows) .C, x < 256 ^ fmt.itemsize := by
        intro x hx
        obtain ⟨row, hrow, hxr⟩ := flatMapL_mem _ rows x hx
        exact hel row hrow x hxr
      unfold data_to_bytes
      rw [bytes_to_data_flat (flattenOrd (.two rows) .C) c r fmt .C swap
        hw hcpos hflen helf]
      by_cases h1 : c = 1
      · rw [if_pos h1, if_pos h1]
        subst h1
        rw [flatten_reshape_one _ r .C (by simpa using hflen)]
      · rw [if_neg h1, if_neg h1]
        rw [show flattenOrd (.two rows) .C = flatMapL (fun row => row) rows from rfl]
        rw [reshapeC_round rows c r hc hr]
  | F =>
      have hrows0 : (rows.getD 0 []).length = r := by
        have h0 : 0 < rows.length := by omega
        rw [List.getD_eq_getElem rows [] h0]
        exact hr rows[0] (rows.getElem_mem h0)
      have hflen : (flattenOrd (.two rows) .F).length = c * r := by
        show (flatMapL (fun j => rows.map (fun row => row.getD j 0))
          (List.range ((rows.getD 0 []).length))).length = c * r
        rw [flatMapL_length_uniform _ c _ (fun j _ => by simp [hc])]
        rw [List.length_range, hrows0, Nat.mul_comm]
      have helf : ∀ x ∈ flattenOrd (.two rows) .F, x < 256 ^ fmt.itemsize := by
        intro x hx
        obtain ⟨j, _, hxj⟩ := flatMapL_mem _ _ x hx
        obtain ⟨row, hrow, hxr⟩ := List.mem_map.mp hxj
        by_cases hj : j < row.length
        · rw [← hxr, List.getD_eq_getElem row 0 hj]
          exact hel row hrow _ (row.getElem_mem hj)
        · rw [← hxr, List.getD_eq_default row 0 (by omega)]
          exact Nat.pos_pow_of_pos _ (by omega)
      unfold data_to_bytes
      rw [bytes_to_data_flat (flattenOrd (.two rows) .F) c r fmt .F swap
        hw hcpos hflen helf]
      by_cases h1 : c = 1
      · rw [if_pos h1, if_pos h1]
        subst h1
        rw [flatten_reshape_one _ r .F (by simpa using hflen)]
      · rw [if_neg h1, if_neg h1]
        rw [show flattenOrd (.two rows) .F
          = flatMapL (fun j => rows.map (fun row => row.getD j 0))
            (List.range ((rows.getD 0 []).length)) from rfl]
        rw [reshapeF_round rows c r hc hcpos hr]

/-- C2 witness: the C-order and F-order round-trips at the 2x2 matrix
`[[1, 2], [3, 4]]` with an 8-byte little-endian element type. -/
theorem C2_array_roundtrip_witness :
    bytes_to_data
        (data_to_bytes (.two [[1, 2], [3, 4]]) ⟨8, .le⟩ .F false)
        2 ⟨8, .le⟩ .F false
      = .ok (.two [[1, 2], [3, 4]]) :=
  C2_array_roundtrip_amended [[1, 2], [3, 4]] 2 2 ⟨8, .le⟩ .F false
    (by decide) (by decide) (by decide) (by decide) (by decide)

/-- C2 counterexample: at `(c, r) = (1, 1)` the round-trip returns a
one-dimensional array, not the original `(1, 1)` matrix. -/
theorem C2_array_roundtrip_counterexample :
    bytes_to_data (data_to_bytes (.two [[5]]) ⟨8, .le⟩ .F false)
        1 ⟨8, .le⟩ .F false
      = .ok (.one [5])
    ∧ NDArr.one [5] ≠ NDArr.two [[5]] := by
  decide

/-- C3 (amended): no silent truncation. When the buffer length is not an
exact multiple of `n_cols * element_width`, `bytes_to_data` fails
rather than dropping the remainder: `np.frombuffer` raises when the
element width does not divide the length, and otherwise the `reshape`
raises because the element count is not `n_cols * n_records`. The
original claim said the remainder is silently dropped and decode never
fails (see the counterexample). -/
theorem C3_truncation_raises (enc : List Nat) (n_cols : Nat) (fmt : Dtype)
    (order : MOrder) (swap : Bool)
    (hw : 0 < fmt.itemsize) (hn : 0 < n_cols)
    (hndvd : ¬ (n_cols * fmt.itemsize ∣ enc.length)) :
    bytes_to_data enc n_cols fmt order swap
      = .error (if enc.length % fmt.itemsize ≠ 0 then .bufferSizeErr
          else .reshapeErr) := by
  unfold bytes_to_data
  rw [dtypeOf_itemsize]
  rw [if_neg (by omega)]
  by_cases hmod : enc.length % fmt.itemsize = 0
  · rw [if_neg (by omega)]
    rw [if_neg (by omega)]
    obtain ⟨m, hm⟩ : fmt.itemsize ∣ enc.length := Nat.dvd_of_mod_eq_zero hmod
    have hlen : ((chunksOf fmt.itemsize enc).map (decElem (dtypeOf swap fmt))).length
        = m := by
      rw [List.length_map]
      exact chunksOf_length_mul fmt.itemsize hw m enc hm
    have hne : m ≠ n_cols * (enc.length / n_cols / fmt.itemsize) := by
      intro hcon
      apply hndvd
      rw [Nat.div_div_eq_div_mul] at hcon
      refine ⟨enc.length / (n_cols * fmt.itemsize), ?_⟩
      calc enc.length = fmt.itemsize * m := hm
        _ = fmt.itemsize * (n_cols * (enc.length / (n_cols * fmt.itemsize))) := by
            rw [← hcon]
        _ = n_cols * fmt.itemsize * (enc.length / (n_cols * fmt.itemsize)) := by
            ring
    rw [if_pos (by rw [hlen]; exact hne)]
    rw [if_neg (by omega)]
  · rw [if_pos hmod]
    rw [if_pos hmod]

/-- C3 witness: a 3-byte buffer with a 2-byte element type and 3 columns
(3 is not a multiple of 3*2) makes the decode fail in `np.frombuffer`. -/
theorem C3_truncation_witness :
    bytes_to_data [9, 8, 7] 3 ⟨2, .le⟩ .C false = .error .bufferSizeErr :=
  C3_truncation_raises [9, 8, 7] 3 ⟨2, .le⟩ .C false
    (by decide) (by decide) (by decide)

/-- C3 counterexample: the claim as stated says a non-multiple buffer is
decoded without failing, the remainder silently dropped. In fact an
8-byte buffer read as two columns of 8-byte elements fails in `reshape`,
and a 1-byte buffer read as 8-byte elements fails in `np.frombuffer`. -/
theorem C3_truncation_counterexample :
    bytes_to_data [1, 2, 3, 4, 5, 6, 7, 8] 2 ⟨8, .le⟩ .F false
        = .error .reshapeErr
    ∧ bytes_to_data [9] 1 ⟨8, .le⟩ .F false = .error .bufferSizeErr := by
  decide

/-- C9: single-column flattening. `bytes_to_data` with `n_cols = 1`
never returns a two-dimensional `(1, n)` matrix: every successful result
is one-dimensional (first conjunct), and whenever the element width
divides the buffer (the only case in which the single-column decode can
succeed) the result is exactly the one-dimensional array of all decoded
elements (second conjunct). -/
theorem C9_single_column_flattening (enc : List Nat) (fmt : Dtype)
    (order : MOrder) (swap : Bool) :
    (∀ a : NDArr, bytes_to_data enc 1 fmt order swap = .ok a →
      ∃ xs, a = NDArr.one xs)
    ∧ (0 < fmt.itemsize → enc.length % fmt.itemsize = 0 →
        bytes_to_data enc 1 fmt order swap
          = .ok (.one ((chunksOf fmt.itemsize enc).map
              (decElem (dtypeOf swap fmt))))) := by
  constructor
  · intro a h
    unfold bytes_to_data at h
    split at h
    · exact absurd h (by simp)
    · split at h
      · exact absurd h (by simp)
      · split at h
        · exact absurd h (by simp)
        · split at h
          · exact absurd h (by simp)
          · rw [if_pos rfl] at h
            injection h with h2
            exact ⟨_, h2.symm⟩
  · intro hw hmod
    unfold bytes_to_data
    rw [dtypeOf_itemsize]
    rw [if_neg (by omega), if_neg (by omega), if_neg (by omega)]
    obtain ⟨m, hm⟩ : fmt.itemsize ∣ enc.length := Nat.dvd_of_mod_eq_zero hmod
    have hchlen : (chunksOf fmt.itemsize enc).length = m :=
      chunksOf_length_mul fmt.itemsize hw m enc hm
    have hnr : enc.length / 1 / fmt.itemsize = m := by
      rw [Nat.div_one, hm]
      exact Nat.mul_div_cancel_left m hw
    rw [hnr]
    rw [if_neg (by rw [List.length_map, hchlen]; simp)]
    rw [if_pos rfl]
    rw [flatten_reshape_one _ m order (by rw [List.length_map, hchlen])]

/-- C9 witness: decoding the big-endian 2-byte encoding of
`[513, 514, 515, 516]` with `n_cols = 1` returns the one-dimensional
`[513, 514, 515, 516]`. -/
theorem C9_single_column_witness :
    bytes_to_data [2, 1, 2, 2, 2, 3, 2, 4] 1 ⟨2, .be⟩ .F false
      = .ok (.one [513, 514, 515, 516]) :=
  (C9_single_column_flattening [2, 1, 2, 2, 2, 3, 2, 4]
      ⟨2, .be⟩ .F false).2 (by decide) (by decide)

/-! ## File writing (`open_file`, `write_to_file`, `write_filterbank`) -/

/-- The file system visible to one write call: path to file contents. -/
abbrev FS := PyDict (List Nat)

/-- `file_exists` (`os.path.isfile`). -/
def file_exists (fs : FS) (path : String) : Bool := (alookup fs path).isSome

/-- `files_utils.wmodes`. -/
def wmodes : List String := ["w", "wb", "w+", "wb+", "r+"]

/-- `files_utils.amodes`. -/
def amodes : List String := ["a", "ab", "a+", "ab+"]

/-- `write_to_file(data, path, mode, overwrite)` for a string path:
`open_file` raises `FileExistsError` when the mode is a writing or
appending one, overwrite is off and the path already exists; otherwise,
for the truncating `"wb"` mode used by the filterbank writer, the file
ends up containing exactly `data`. -/
def write_to_file (data : List Nat) (path : String) (mode : String)
    (overwrite : Bool) (fs : FS) : Except PyErr FS :=
  if mode ∈ amodes ++ wmodes ∧ ¬overwrite ∧ file_exists fs path then
    .error .fileExistsErr
  else .ok (setKV fs path data)

/-- `filterbank._header_types`: the built-in filterbank type map that
caller overrides are merged over. -/
def filt_header_types : PyDict Fmt :=
  [("telescope_id", .fint), ("machine_id", .fint), ("data_type", .fint),
   ("rawdatafile", .fstr), ("source_name", .fstr), ("barycentric", .fint),
   ("pulsarcentric", .fint), ("az_start", .ffloat), ("za_start", .ffloat),
   ("src_raj", .ffloat), ("src_dej", .ffloat), ("tstart", .ffloat),
   ("tsamp", .ffloat), ("nbits", .fint), ("fch1", .ffloat),
   ("foff", .ffloat), ("nchans", .fint), ("nifs", .fint),
   ("refdm", .ffloat), ("period", .ffloat)]

/-- `dict(base, **upd)`: the keys of `base` in order with values
overridden by `upd`, then the new keys of `upd` in their order. -/
def dictMerge (base upd : PyDict α) : PyDict α :=
  upd.foldl (fun acc p => setKV acc p.1 p.2) base

/-- `os.path.basename` of a POSIX path: the characters after the last
slash. -/
def basename (path : String) : String :=
  ⟨(path.toList.reverse.takeWhile (fun c => c ≠ '/')).reverse⟩

/-- `name = header.get("rawdatafile", None)` — a missing key and a key
stored with value `None` both read back as Python `None`. -/
def rawdatafileOf (header : Header) : Option Value :=
  match alookup header "rawdatafile" with
  | some .vnull => none
  | o => o

/-- The Python comparison `filen != name` between the resolved base
name (a `str`) and the header's `rawdatafile` value: unequal whenever
`name` is absent or not a string. -/
def nameMismatch (filen : String) : Option Value → Bool
  | some (.vstr s) => filen != s
  | _ => true

/-- The tail of `write_filterbank` once the output path and display
name are resolved: emit the mismatch warning, encode the header with
the merged type map, encode the data, concatenate and write with the
`"wb"` mode under the overwrite policy. -/
structure WriteFB where
  fs : FS
  mismatchWarn : Bool
  deriving DecidableEq, Repr

def writeFilterbankRest (data : NDArr) (header : Header)
    (key_fmts : PyDict Fmt) (fmt : Dtype) (order : MOrder) (swap : Bool)
    (overwrite : Bool) (fs : FS) (outf filen : String) (name : Option Value) :
    Except PyErr WriteFB :=
  match dict_to_bytes header (dictMerge filt_header_types key_fmts) swap with
  | .error e => .error e
  | .ok hb =>
      match write_to_file (hb ++ data_to_bytes data fmt order swap) outf "wb"
          overwrite fs with
      | .error e => .error e
      | .ok fs2 => .ok ⟨fs2, nameMismatch filen name⟩

/-- `write_filterbank(data, header, key_fmts, outfile, fmt, order, swap,
overwrite)` over the abstract file system: resolve the output name from
`outfile` or the header's `rawdatafile` field (raising `OSError` when
neither is available, before anything is encoded or written), then
proceed with `writeFilterbankRest`. A non-string `rawdatafile` used as
the output path would reach Python's `open` with a non-path argument;
no claim depends on that branch. -/
def write_filterbank (data : NDArr) (header : Header)
    (key_fmts : PyDict Fmt) (outfile : Option String) (fmt : Dtype)
    (order : MOrder) (swap : Bool) (overwrite : Bool) (fs : FS) :
    Except PyErr WriteFB :=
  match outfile, rawdatafileOf header with
  | none, none => .error .osErr
  | none, some (.vstr s) =>
      writeFilterbankRest data header key_fmts fmt order swap overwrite fs
        s s (some (.vstr s))
  | none, some _ => .error .unmodeledErr
  | some p, name =>
      writeFilterbankRest data header key_fmts fmt order swap overwrite fs
        p (basename p) name

/-- C7: output-name resolution at write time. With no explicit outfile
and no (or a null) `rawdatafile` header field, `write_filterbank` fails
with `OSError` before any bytes are encoded or written (first
conjunct). With an explicit outfile whose base name differs from the
header's `rawdatafile` value, the write proceeds to completion and the
only effect of the mismatch is the non-fatal warning flag (second
conjunct). -/
theorem C7_output_name_resolution :
    (∀ (data : NDArr) (header : Header) (key_fmts : PyDict Fmt) (fmt : Dtype)
        (order : MOrder) (swap overwrite : Bool) (fs : FS),
      rawdatafileOf header = none →
      write_filterbank data header key_fmts none fmt order swap overwrite fs
        = .error .osErr)
    ∧ (∀ (data : NDArr) (header : Header) (key_fmts : PyDict Fmt) (p : String)
        (fmt : Dtype) (order : MOrder) (swap overwrite : Bool) (fs : FS)
        (hb : List Nat),
      nameMismatch (basename p) (rawdatafileOf header) = true →
      dict_to_bytes header (dictMerge filt_header_types key_fmts) swap = .ok hb →
      (overwrite = true ∨ file_exists fs p = false) →
      write_filterbank data header key_fmts (some p) fmt order swap overwrite fs
        = .ok ⟨setKV fs p (hb ++ data_to_bytes data fmt order swap), true⟩) := by
  constructor
  · intro data header key_fmts fmt order swap overwrite fs hname
    unfold write_filterbank
    rw [hname]
  · intro data header key_fmts p fmt order swap overwrite fs hb hmis henc hfree
    have hwf : write_to_file (hb ++ data_to_bytes data fmt order swap) p "wb"
        overwrite fs
        = .ok (setKV fs p (hb ++ data_to_bytes data fmt order swap)) := by
      unfold write_to_file
      rw [if_neg (by
        intro hcon
        rcases hfree with h | h
        · rw [h] at hcon
          simp at hcon
        · rw [h] at hcon
          simp at hcon)]
    unfold write_filterbank
    show writeFilterbankRest data header key_fmts fmt order swap overwrite fs
      p (basename p) (rawdatafileOf header) = _
    unfold writeFilterbankRest
    simp only [henc, hwf, hmis]

/-- C7 witness: writing with no outfile and an empty header fails with
`OSError`; writing the header `{rawdatafile: "x.fil"}` to the explicit
path `other.fil` succeeds, stores header bytes followed by data bytes,
and raises only the mismatch warning. -/
theorem C7_output_name_resolution_witness :
    write_filterbank (.one [7]) [] [] none ⟨8, .le⟩ .C false false []
      = .error .osErr
    ∧ write_filterbank (.one [7]) [("rawdatafile", Value.vstr "x.fil")] []
        (some "other.fil") ⟨8, .le⟩ .C false false []
      = .ok ⟨[("other.fil",
          [12, 0, 0, 0, 72, 69, 65, 68, 69, 82, 95, 83, 84, 65, 82, 84,
           11, 0, 0, 0, 114, 97, 119, 100, 97, 116, 97, 102, 105, 108, 101,
           5, 0, 0, 0, 120, 46, 102, 105, 108,
           10, 0, 0, 0, 72, 69, 65, 68, 69, 82, 95, 69, 78, 68,
           7, 0, 0, 0, 0, 0, 0, 0])], true⟩ :=
  ⟨C7_output_name_resolution.1 (.one [7]) [] [] ⟨8, .le⟩ .C false false []
      (by decide),
    C7_output_name_resolution.2 (.one [7])
      [("rawdatafile", Value.vstr "x.fil")] [] "other.fil" ⟨8, .le⟩ .C
      false false []
      [12, 0, 0, 0, 72, 69, 65, 68, 69, 82, 95, 83, 84, 65, 82, 84,
       11, 0, 0, 0, 114, 97, 119, 100, 97, 116, 97, 102, 105, 108, 101,
       5, 0, 0, 0, 120, 46, 102, 105, 108,
       10, 0, 0, 0, 72, 69, 65, 68, 69, 82, 95, 69, 78, 68]
      (by decide) (by decide) (Or.inr (by decide))⟩

/-- C8: overwrite policy. Writing to a path that already exists fails
with `FileExistsError` when overwrite is off (the pure model returns no
updated file system, so the destination is untouched); the identical
call with overwrite on succeeds and the destination ends up holding the
header bytes immediately followed by the data bytes. -/
theorem C8_overwrite_policy (data : NDArr) (header : Header)
    (key_fmts : PyDict Fmt) (p : String) (fmt : Dtype) (order : MOrder)
    (swap : Bool) (fs : FS) (hb : List Nat)
    (hexists : file_exists fs p = true)
    (henc : dict_to_bytes header (dictMerge filt_header_types key_fmts) swap
      = .ok hb) :
    write_filterbank data header key_fmts (some p) fmt order swap false fs
      = .error .fileExistsErr
    ∧ write_filterbank data header key_fmts (some p) fmt order swap true fs
      = .ok ⟨setKV fs p (hb ++ data_to_bytes data fmt order swap),
          nameMismatch (basename p) (rawdatafileOf header)⟩ := by
  constructor
  · have hwf : write_to_file (hb ++ data_to_bytes data fmt order swap) p "wb"
        false fs = .error .fileExistsErr := by
      unfold write_to_file
      rw [if_pos ⟨by decide, by simp, hexists⟩]
    unfold write_filterbank
    show writeFilterbankRest data header key_fmts fmt order swap false fs
      p (basename p) (rawdatafileOf header) = _
    unfold writeFilterbankRest
    simp only [henc, hwf]
  · have hwf : write_to_file (hb ++ data_to_bytes data fmt order swap) p "wb"
        true fs
        = .ok (setKV fs p (hb ++ data_to_bytes data fmt order swap)) := by
      unfold write_to_file
      rw [if_neg (by
        intro hcon
        simp at hcon)]
    unfold write_filterbank
    show writeFilterbankRest data header key_fmts fmt order swap true fs
      p (basename p) (rawdatafileOf header) = _
    unfold writeFilterbankRest
    simp only [henc, hwf]

/-- C8 witness: the path `x.fil` already holds one byte; the
overwrite-off call fails with `FileExistsError`, the overwrite-on call
replaces the contents with the header bytes followed by the data
bytes. -/
theorem C8_overwrite_policy_witness :
    write_filterbank (.one [7]) [("rawdatafile", Value.vstr "x.fil")] []
        (some "x.fil") ⟨8, .le⟩ .C false false [("x.fil", [1])]
      = .error .fileExistsErr
    ∧ write_filterbank (.one [7]) [("rawdatafile", Value.vstr "x.fil")] []
        (some "x.fil") ⟨8, .le⟩ .C false true [("x.fil", [1])]
      = .ok ⟨[("x.fil",
          [12, 0, 0, 0, 72, 69, 65, 68, 69, 82, 95, 83, 84, 65, 82, 84,
           11, 0, 0, 0, 114, 97, 119, 100, 97, 116, 97, 102, 105, 108, 101,
           5, 0, 0, 0, 120, 46, 102, 105, 108,
           10, 0, 0, 0, 72, 69, 65, 68, 69, 82, 95, 69, 78, 68,
           7, 0, 0, 0, 0, 0, 0, 0])], false⟩ :=
  C8_overwrite_policy (.one [7]) [("rawdatafile", Value.vstr "x.fil")] []
    "x.fil" ⟨8, .le⟩ .C false [("x.fil", [1])]
    [12, 0, 0, 0, 72, 69, 65, 68, 69, 82, 95, 83, 84, 65, 82, 84,
     11, 0, 0, 0, 114, 97, 119, 100, 97, 116, 97, 102, 105, 108, 101,
     5, 0, 0, 0, 120, 46, 102, 105, 108,
     10, 0, 0, 0, 72, 69, 65, 68, 69, 82, 95, 69, 78, 68]
    (by decide) (by decide)

/-- C10: the text packer writes a 4-byte unsigned prefix holding the
string's *character* count followed by the UTF-8 bytes (first
conjunct); the decoder reads the prefix and then that many *bytes*, so
strings of single-byte characters round-trip exactly (second conjunct);
a multi-byte character breaks the correspondence: packing `"é"` (one
character, two bytes) produces a prefix of 1, and decoding it back
truncates the UTF-8 sequence and fails (third conjunct). -/
theorem C10_text_prefix_char_count (s : String) (ord : Bord) :
    (s.length < 4294967296 →
      packStrB ord s = .ok (encB ord 4 s.length ++ utf8L s.toList))
    ∧ (asciiStr s → s.length < 4294967296 →
        decodeStrB ord (encB ord 4 s.length ++ utf8L s.toList) = .ok (s, []))
    ∧ (packStrB .le "é" = .ok [1, 0, 0, 0, 195, 169]
      ∧ decodeStrB .le [1, 0, 0, 0, 195, 169] = .error .unicodeErr) := by
  refine ⟨?_, ?_, by decide⟩
  · intro hlen
    exact packStrB_ok_of_len ord s hlen
  · intro hascii hlen
    have := decodeStrB_round ord s [] hascii hlen
    rwa [List.append_nil] at this

/-- C10 witness: the single-byte string `"abc"` packs to a prefix of 3
followed by its three bytes and decodes back to itself. -/
theorem C10_text_prefix_witness :
    decodeStrB .le [3, 0, 0, 0, 97, 98, 99] = .ok ("abc", []) :=
  (C10_text_prefix_char_count "abc" .le).2.1 (by decide) (by decide)

end DeepSpyce
